import Mathlib

/-!
Verification of the stylus-replay trace engine (`src/stylus-replay/src/trace.rs`).

The Rust code is shallowly embedded: JSON values (`serde_json::Value`) become
the `Value` inductive, fallible code returns `Except Failure`, and the two
distinct failure modes of the source are kept apart:
  * `Failure.diag` models a controlled `bail!` (an `eyre` error carrying a
    diagnostic that names the offending field / value / step);
  * `Failure.panic` models a Rust panic (`unwrap` on `None`/`Err`,
    out-of-range slicing `&xs[a..b]`, `todo!`), which aborts without a
    structured field diagnostic.
Machine integers (u8/u16/u32/u64/U256, ink values) are represented as `Nat`;
the decoders build them from byte lists, so no overflow arithmetic arises.
-/

namespace StylusReplay

/-- A `serde_json` number: either an integer (backed by u64/i64) or a
floating-point backed number that is not an integer. -/
inductive JNum where
  | int : Int → JNum
  | frac : JNum

/-- `serde_json::Number::as_u64`: `some` exactly when the number is an
integer representable as a u64. -/
def JNum.asU64 : JNum → Option Nat
  | .int n => if 0 ≤ n ∧ n < 2 ^ 64 then some n.toNat else none
  | .frac => none

/-- `serde_json::Value`. Objects are association lists (serde maps have
unique keys; the traced payloads we model respect this). -/
inductive Value where
  | null : Value
  | bool : Bool → Value
  | num : JNum → Value
  | str : String → Value
  | arr : List Value → Value
  | obj : List (String × Value) → Value

mutual

/-- The frame tree decoded from a trace, mirroring the mutually recursive
Rust types `TraceFrame` / `Hostio` / `HostioKind`. Addresses are 20-byte
lists, B256 values 32-byte lists, integers `Nat`. -/
inductive HostioKind where
  | readArgs (args : List Nat)
  | writeResult (result : List Nat)
  | msgValue (value : List Nat)
  | memoryGrow (pages : Nat)
  | contractAddress (address : List Nat)
  | callContract (address : List Nat) (gas : Nat) (value : Nat) (data : List Nat)
      (outsLen : Nat) (status : Nat) (frame : TraceFrame)
  | userEntrypoint
  | userReturned

/-- `Hostio { kind, start_ink, end_ink }`. -/
inductive Hostio where
  | mk (kind : HostioKind) (start_ink : Nat) (end_ink : Nat)

/-- `TraceFrame { steps, address }`. -/
inductive TraceFrame where
  | mk (steps : List Hostio) (address : Option (List Nat))

end

def Hostio.kind : Hostio → HostioKind
  | .mk k _ _ => k

def Hostio.start_ink : Hostio → Nat
  | .mk _ s _ => s

def Hostio.end_ink : Hostio → Nat
  | .mk _ _ e => e

def TraceFrame.steps : TraceFrame → List Hostio
  | .mk s _ => s

def TraceFrame.address : TraceFrame → Option (List Nat)
  | .mk _ a => a

/-- `HostioKind::name`. -/
def HostioKind.name : HostioKind → String
  | .readArgs _ => "read_args"
  | .writeResult _ => "write_result"
  | .msgValue _ => "msg_value"
  | .memoryGrow _ => "memory_grow"
  | .contractAddress _ => "contract_address"
  | .callContract _ _ _ _ _ _ _ => "call_contract"
  | .userEntrypoint => "user_entrypoint"
  | .userReturned => "user_returned"

/-- Controlled decode errors: each `bail!` in `trace.rs`, with the data its
format string carries (the offending field name, value, or step). -/
inductive DiagErr where
  | notAnArray (v : Value)
  | notAStep (v : Value)
  | missingField (name : String)
  | wrongType (name : String) (v : Value)
  | notAByte (v : Value)
  | byteOutOfRange (b : Nat)
  | wrongWidth (ty : String) (data : List Nat)
  | noNextHostio

/-- Rust panics reachable in `parse_frame`: `Option::unwrap` on `None`
(non-u64 numbers, missing `steps` key, unparseable address key),
out-of-range slicing, and the `todo!` hit on an unknown hostio name.
Unlike `DiagErr`, these abort without naming the offending field. -/
inductive PanicErr where
  | unwrapNone
  | sliceOutOfRange (endIdx len : Nat)
  | todo (name : String)

/-- Outcome of fallible decode code: a controlled `bail!` diagnostic or a
process panic. -/
inductive Failure where
  | diag : DiagErr → Failure
  | panic : PanicErr → Failure

/-- `FrameReader { frame, steps }`: the replay queue (a `VecDeque` popped
from the front). -/
inductive FrameReader where
  | mk (frame : TraceFrame) (steps : List Hostio)

def FrameReader.frame : FrameReader → TraceFrame
  | .mk f _ => f

def FrameReader.steps : FrameReader → List Hostio
  | .mk _ s => s

/-- `Trace::reader`: builds the reader over the top frame's steps. -/
def TraceFrame.reader (f : TraceFrame) : FrameReader :=
  .mk f f.steps

/-- `FrameReader::next`: pop the queue head, `bail!("No next hostio")` when
the queue is empty. Mutation of `self` is modelled by returning the new
reader. -/
def FrameReader.next : FrameReader → Except Failure (Hostio × FrameReader)
  | .mk _ [] => .error (.diag .noNextHostio)
  | .mk f (h :: t) => .ok (h, .mk f t)

/-- The two ways `FrameReader::next_hostio` panics: `self.next().unwrap()`
on an empty queue (the "No next hostio" error), and the explicit
`panic!("incorrect hostio: expected .. found ..")`, which reports both the
expected name and the actual decoded event. -/
inductive ReplayPanic where
  | noNext
  | incorrect (expected : String) (found : Hostio)

/-- The loop of `FrameReader::next_hostio`, acting on the queue: pop; return
the event when its name matches; silently skip `memory_grow` and
`user_entrypoint`; otherwise panic with the expected/actual mismatch. -/
def next_hostio_steps (expected : String) :
    List Hostio → Except ReplayPanic (Hostio × List Hostio)
  | [] => .error .noNext
  | h :: t =>
    if h.kind.name = expected then .ok (h, t)
    else if h.kind.name = "memory_grow" ∨ h.kind.name = "user_entrypoint" then
      next_hostio_steps expected t
    else .error (.incorrect expected h)

/-- `FrameReader::next_hostio`: runs the pop loop on the reader's queue. -/
def FrameReader.next_hostio (r : FrameReader) (expected : String) :
    Except ReplayPanic (Hostio × FrameReader) :=
  match next_hostio_steps expected r.steps with
  | .error e => .error e
  | .ok (h, t) => .ok (h, .mk r.frame t)

/-! Concrete hostios used by the replay-claim examples. -/

def emptyFrame : TraceFrame := .mk [] none

def mgHostio (p : Nat) : Hostio := .mk (.memoryGrow p) 0 0

def raHostio : Hostio := .mk (.readArgs [1, 2, 3, 4]) 100 90

def ccHostio : Hostio :=
  .mk (.callContract (List.replicate 20 0) 5 0 [] 0 1 emptyFrame) 7 6

/-- C1: `next_hostio` pops the head of the queue: a head whose name matches
is returned (with the queue advanced); a non-matching head in the tolerated
set `{memory_grow, user_entrypoint}` is discarded and the pop repeats on the
rest; and on the queue `memory_grow, memory_grow, read_args`, popping
`"read_args"` returns the `read_args` event after silently consuming the two
`memory_grow` events. -/
theorem c1_pop_next_skips_tolerated :
    (∀ (f : TraceFrame) (expected : String) (h : Hostio) (t : List Hostio),
        h.kind.name = expected →
        FrameReader.next_hostio (.mk f (h :: t)) expected = .ok (h, .mk f t))
    ∧ (∀ (f : TraceFrame) (expected : String) (h : Hostio) (t : List Hostio),
        h.kind.name ≠ expected →
        (h.kind.name = "memory_grow" ∨ h.kind.name = "user_entrypoint") →
        FrameReader.next_hostio (.mk f (h :: t)) expected =
          FrameReader.next_hostio (.mk f t) expected)
    ∧ FrameReader.next_hostio (.mk emptyFrame [mgHostio 1, mgHostio 2, raHostio])
        "read_args" = .ok (raHostio, .mk emptyFrame []) := by
  refine ⟨?_, ?_, ?_⟩
  · intro f expected h t hname
    simp [FrameReader.next_hostio, next_hostio_steps, FrameReader.steps,
      FrameReader.frame, hname]
  · intro f expected h t hne htol
    simp [FrameReader.next_hostio, next_hostio_steps, FrameReader.steps,
      FrameReader.frame, hne, htol]
  · rfl

/-- C1 witness: the general matching-head case applied to a singleton
`read_args` queue. -/
theorem c1_witness :
    FrameReader.next_hostio (.mk emptyFrame [raHostio]) "read_args"
      = .ok (raHostio, .mk emptyFrame []) :=
  c1_pop_next_skips_tolerated.1 emptyFrame "read_args" raHostio [] rfl

/-- C2: when the popped head's name is neither the expected one nor in the
tolerated set `{memory_grow, user_entrypoint}`, `next_hostio` fails fatally
with a mismatch carrying both the expected name and the actual decoded
event; in particular a `call_contract` head popped with expectation
`"write_result"` yields that mismatch rather than being skipped or
returned. -/
theorem c2_mismatch_fatal :
    (∀ (f : TraceFrame) (expected : String) (h : Hostio) (t : List Hostio),
        h.kind.name ≠ expected →
        ¬(h.kind.name = "memory_grow" ∨ h.kind.name = "user_entrypoint") →
        FrameReader.next_hostio (.mk f (h :: t)) expected =
          .error (.incorrect expected h))
    ∧ FrameReader.next_hostio (.mk emptyFrame [ccHostio]) "write_result"
        = .error (.incorrect "write_result" ccHostio) := by
  constructor
  · intro f expected h t hne htol
    simp [FrameReader.next_hostio, next_hostio_steps, FrameReader.steps,
      FrameReader.frame, hne, htol]
  · rfl

/-- C2 witness: the general mismatch case applied to a `call_contract` head
popped with expectation `"msg_value"`. -/
theorem c2_witness :
    FrameReader.next_hostio (.mk emptyFrame [ccHostio]) "msg_value"
      = .error (.incorrect "msg_value" ccHostio) :=
  c2_mismatch_fatal.1 emptyFrame "msg_value" ccHostio [] (by decide) (by decide)

/-- C3: popping from an empty queue always fails with the no-next-event
error (the unwrapped `bail!("No next hostio")` of `FrameReader::next`) and
never returns a hostio; this also holds when the queue empties mid-call
while tolerated events are being discarded. -/
theorem c3_empty_queue_fails :
    (∀ (f : TraceFrame) (expected : String),
        FrameReader.next_hostio (.mk f []) expected = .error .noNext)
    ∧ (∀ f : TraceFrame, FrameReader.next (.mk f []) = .error (.diag .noNextHostio))
    ∧ (∀ (f : TraceFrame) (expected : String) (steps : List Hostio),
        (∀ h ∈ steps, h.kind.name ≠ expected ∧
          (h.kind.name = "memory_grow" ∨ h.kind.name = "user_entrypoint")) →
        FrameReader.next_hostio (.mk f steps) expected = .error .noNext) := by
  refine ⟨fun f expected => rfl, fun f => rfl, ?_⟩
  intro f expected steps hall
  induction steps with
  | nil => rfl
  | cons h t ih =>
    have hh := hall h (List.mem_cons_self h t)
    have := ih fun x hx => hall x (List.mem_cons_of_mem h hx)
    simp only [FrameReader.next_hostio, FrameReader.steps, FrameReader.frame] at this ⊢
    simp [next_hostio_steps, hh.1, hh.2]
    exact this

/-- C3 witness: a queue of two tolerated events drains to the no-next-event
failure when `read_args` is expected. -/
theorem c3_witness :
    FrameReader.next_hostio (.mk emptyFrame [mgHostio 3, mgHostio 4]) "read_args"
      = .error .noNext :=
  c3_empty_queue_fails.2.2 emptyFrame "read_args" [mgHostio 3, mgHostio 4]
    (by decide)

/-! ## The decoder (`TraceFrame::parse_frame` and its helpers) -/

@[simp]
theorem bindE_ok {α β : Type} (a : α) (f : α → Except Failure β) :
    (Except.ok a >>= f) = f a := rfl

@[simp]
theorem bindE_error {α β : Type} (e : Failure) (f : α → Except Failure β) :
    ((Except.error e : Except Failure α) >>= f) = .error e := rfl

@[simp]
theorem pureE {α : Type} (a : α) : (pure a : Except Failure α) = .ok a := rfl

/-- `serde_json::Map::remove`: take out the (first) entry with the given
key, returning its value and the remaining entries in order. -/
def removeKey (name : String) :
    List (String × Value) → Option (Value × List (String × Value))
  | [] => none
  | (k, v) :: rest =>
    if k = name then some (v, rest)
    else
      match removeKey name rest with
      | none => none
      | some (v', rest') => some (v', (k, v) :: rest')

/-- The value of the (first) entry with the given key, without removal. -/
def lookupFirst (name : String) : List (String × Value) → Option Value
  | [] => none
  | (k, v) :: rest => if k = name then some v else lookupFirst name rest

/-- The `get_typed!(keys, String, name)` macro: remove the field, failing
with the missing-field or unexpected-type `bail!` diagnostics. -/
def getString (keys : List (String × Value)) (name : String) :
    Except Failure (String × List (String × Value)) :=
  match removeKey name keys with
  | none => .error (.diag (.missingField name))
  | some (.str s, rest) => .ok (s, rest)
  | some (v, _) => .error (.diag (.wrongType name v))

/-- `get_typed!(keys, Array, name)`. -/
def getArray (keys : List (String × Value)) (name : String) :
    Except Failure (List Value × List (String × Value)) :=
  match removeKey name keys with
  | none => .error (.diag (.missingField name))
  | some (.arr xs, rest) => .ok (xs, rest)
  | some (v, _) => .error (.diag (.wrongType name v))

/-- `get_typed!(keys, Object, name)`. -/
def getObject (keys : List (String × Value)) (name : String) :
    Except Failure (List (String × Value) × List (String × Value)) :=
  match removeKey name keys with
  | none => .error (.diag (.missingField name))
  | some (.obj m, rest) => .ok (m, rest)
  | some (v, _) => .error (.diag (.wrongType name v))

/-- `get_typed!(keys, Number, name)`. -/
def getNumber (keys : List (String × Value)) (name : String) :
    Except Failure (JNum × List (String × Value)) :=
  match removeKey name keys with
  | none => .error (.diag (.missingField name))
  | some (.num n, rest) => .ok (n, rest)
  | some (v, _) => .error (.diag (.wrongType name v))

/-- `Option::unwrap`: panics (without a field diagnostic) on `None`. -/
def optUnwrap {α : Type} : Option α → Except Failure α
  | some a => .ok a
  | none => .error (.panic .unwrapNone)

/-- The `get_int!` macro: `get_typed!(keys, Number, name).as_u64().unwrap()`.
A missing or mistyped field is a `bail!`; a number outside u64 range (for
example negative or fractional) is an unwrap panic. -/
def get_int (keys : List (String × Value)) (name : String) :
    Except Failure (Nat × List (String × Value)) :=
  getNumber keys name >>= fun p => optUnwrap p.1.asU64 >>= fun v => pure (v, p.2)

/-- `to_data`: convert an array of JSON values into bytes. A non-number
element or an element in `[256, 2^64)` is a `bail!` naming the value; a
number not representable as u64 is an unwrap panic. -/
def to_data : List Value → Except Failure (List Nat)
  | [] => .ok []
  | v :: vs =>
    match v with
    | .num n =>
      match n.asU64 with
      | none => .error (.panic .unwrapNone)
      | some byte =>
        if byte > 255 then .error (.diag (.byteOutOfRange byte))
        else to_data vs >>= fun bs => pure (byte :: bs)
    | _ => .error (.diag (.notAByte v))

/-- Big-endian value of a byte list (`uNN::from_be_bytes`, and the
`B256 → U256` conversion). -/
def beNat : List Nat → Nat
  | [] => 0
  | b :: rest => b * 256 ^ rest.length + beNat rest

/-- The `convert!(to_u8, u8, |x| x[0])` function (a single byte is its own
big-endian value). -/
def to_u8 (data : List Value) : Except Failure Nat :=
  to_data data >>= fun d =>
    if d.length ≠ 1 then .error (.diag (.wrongWidth "u8" d)) else pure (beNat d)

/-- `convert!(to_u16, u16, from_be_bytes)`. -/
def to_u16 (data : List Value) : Except Failure Nat :=
  to_data data >>= fun d =>
    if d.length ≠ 2 then .error (.diag (.wrongWidth "u16" d)) else pure (beNat d)

/-- `convert!(to_u32, u32, from_be_bytes)`. -/
def to_u32 (data : List Value) : Except Failure Nat :=
  to_data data >>= fun d =>
    if d.length ≠ 4 then .error (.diag (.wrongWidth "u32" d)) else pure (beNat d)

/-- `convert!(to_u64, u64, from_be_bytes)`. -/
def to_u64 (data : List Value) : Except Failure Nat :=
  to_data data >>= fun d =>
    if d.length ≠ 8 then .error (.diag (.wrongWidth "u64" d)) else pure (beNat d)

/-- `convert!(to_u256, U256, ...)`: 32 big-endian bytes to a number. -/
def to_u256 (data : List Value) : Except Failure Nat :=
  to_data data >>= fun d =>
    if d.length ≠ 32 then .error (.diag (.wrongWidth "U256" d)) else pure (beNat d)

/-- `convert!(to_b256, B256, B256::from_slice)`: exactly 32 bytes. -/
def to_b256 (data : List Value) : Except Failure (List Nat) :=
  to_data data >>= fun d =>
    if d.length ≠ 32 then .error (.diag (.wrongWidth "B256" d)) else pure d

/-- `convert!(to_address, Address, Address::from_slice)`: exactly 20
bytes. -/
def to_address (data : List Value) : Except Failure (List Nat) :=
  to_data data >>= fun d =>
    if d.length ≠ 20 then .error (.diag (.wrongWidth "Address" d)) else pure d

/-- The slice `&xs[a..b]` (with `a ≤ b` at every use site): panics when the
end index exceeds the length. -/
def sliceRange (xs : List Value) (a b : Nat) : Except Failure (List Value) :=
  if b ≤ xs.length then .ok ((xs.drop a).take (b - a))
  else .error (.panic (.sliceOutOfRange b xs.length))

/-- The slice `&xs[a..]`: panics when the start index exceeds the length. -/
def sliceFrom (xs : List Value) (a : Nat) : Except Failure (List Value) :=
  if a ≤ xs.length then .ok (xs.drop a)
  else .error (.panic (.sliceOutOfRange a xs.length))

/-- `str::parse::<u8>()`: an optional leading `+` sign, then at least one
decimal digit, value at most 255. Implemented over the string's character
list so it evaluates by kernel reduction. -/
def parse_u8 (s : String) : Option Nat :=
  let cs := match s.data with
    | '+' :: rest => rest
    | cs => cs
  if cs.isEmpty then none
  else if cs.all (·.isDigit) then
    let n := cs.foldl (fun acc c => acc * 10 + (c.toNat - '0'.toNat)) 0
    if n ≤ 255 then some n else none
  else none

/-- The sort key of an address-mapping entry (total on entries whose key
parses; `sort_address` only sorts such entries). -/
def keyVal (p : String × Value) : Nat := (parse_u8 p.1).getD 0

def addrLe (p q : String × Value) : Prop := keyVal p ≤ keyVal q

instance : DecidableRel addrLe := fun p q => Nat.decLe (keyVal p) (keyVal q)

/-- The address-mapping step of the `frame!` macro:
`address.sort_by_key(|x| x.0.parse::<u8>().unwrap())` followed by taking the
values. The source's stable sort evaluates `parse().unwrap()` on the keys
while sorting and panics on an unparseable key; here the key check is
hoisted before a stable insertion sort by numeric key. -/
def sort_address (entries : List (String × Value)) : Except Failure (List Value) :=
  if entries.all (fun p => (parse_u8 p.1).isSome) then
    .ok ((List.insertionSort addrLe entries).map Prod.snd)
  else .error (.panic .unwrapNone)

/-- The outcome of decoding one step object, before any recursion: either a
finished hostio (`none` for the dropped `user_entrypoint`/`user_returned`
markers), or, for `call_contract`, all decoded fields plus the callee
address and the raw nested `steps` value still to be parsed recursively. -/
inductive StepOut where
  | done (hostio : Option Hostio)
  | pend (address : List Nat) (gas : Nat) (value : Nat) (data : List Nat)
      (outsLen : Nat) (status : Nat) (startInk : Nat) (endInk : Nat)
      (toAddr : List Nat) (stepsVal : Value)

/-- The per-step body of `TraceFrame::parse_frame`: field extraction in
source order (`name`, `args`, `outs`, `startInk`, `endInk`), then dispatch
on the name, with the `call_contract` sub-fields and the `frame!` macro's
`info`/`address`/`steps` handling evaluated in the source's order. The
nested recursion itself is performed by `parse_frame`. -/
def parse_step_core (step : Value) : Except Failure StepOut :=
  match step with
  | .obj keys0 =>
    getString keys0 "name" >>= fun pn =>
    getArray pn.2 "args" >>= fun pa =>
    getArray pa.2 "outs" >>= fun po =>
    get_int po.2 "startInk" >>= fun ps =>
    get_int ps.2 "endInk" >>= fun pe =>
    let name := pn.1
    let args := pa.1
    let outs := po.1
    let startInk := ps.1
    let endInk := pe.1
    let keys5 := pe.2
    if name = "read_args" then
      to_data outs >>= fun d =>
      pure (.done (some (.mk (.readArgs d) startInk endInk)))
    else if name = "write_result" then
      to_data args >>= fun d =>
      pure (.done (some (.mk (.writeResult d) startInk endInk)))
    else if name = "msg_value" then
      to_b256 outs >>= fun v =>
      pure (.done (some (.mk (.msgValue v) startInk endInk)))
    else if name = "memory_grow" then
      to_u16 args >>= fun p =>
      pure (.done (some (.mk (.memoryGrow p) startInk endInk)))
    else if name = "contract_address" then
      to_address outs >>= fun a =>
      pure (.done (some (.mk (.contractAddress a) startInk endInk)))
    else if name = "call_contract" then
      sliceRange args 0 20 >>= fun a20 =>
      to_address a20 >>= fun addr =>
      sliceRange args 20 28 >>= fun g8 =>
      to_u64 g8 >>= fun gas =>
      sliceRange args 28 60 >>= fun v32 =>
      to_u256 v32 >>= fun value =>
      sliceFrom args 60 >>= fun dRest =>
      to_data dRest >>= fun data =>
      sliceRange outs 0 4 >>= fun o4 =>
      to_u32 o4 >>= fun outsLen =>
      sliceFrom outs 4 >>= fun o1 =>
      to_u8 o1 >>= fun status =>
      getObject keys5 "info" >>= fun pi1 =>
      getObject pi1.1 "address" >>= fun pad =>
      sort_address pad.1 >>= fun addrVals =>
      optUnwrap (removeKey "steps" pad.2) >>= fun pst =>
      to_address addrVals >>= fun toAddr =>
      pure (.pend addr gas value data outsLen status startInk endInk toAddr pst.1)
    else if name = "user_entrypoint" then pure (.done none)
    else if name = "user_returned" then pure (.done none)
    else .error (.panic (.todo name))
  | v => .error (.diag (.notAStep v))

/-! Size measures and bounds on the extraction helpers, feeding the
termination proof of `parse_frame`: the raw `steps` value handed to the
recursive call is strictly smaller than the step object it came from.
The auto-derived `sizeOf` of the nested inductive `Value` has no executable
code, so an executable size `vsize` is defined first. -/

mutual

/-- Executable structural size of a JSON value. -/
def vsize : Value → Nat
  | .null => 1
  | .bool _ => 1
  | .num _ => 1
  | .str _ => 1
  | .arr xs => 1 + vsizeL xs
  | .obj kvs => 1 + vsizeO kvs
termination_by v => sizeOf v

/-- Total size of a list of JSON values. -/
def vsizeL : List Value → Nat
  | [] => 0
  | v :: vs => vsize v + vsizeL vs
termination_by l => sizeOf l

/-- Total size of the values of an object's entries. -/
def vsizeO : List (String × Value) → Nat
  | [] => 0
  | (_, v) :: r => vsize v + vsizeO r
termination_by l => sizeOf l

end

@[simp]
theorem vsize_arr (xs : List Value) : vsize (.arr xs) = 1 + vsizeL xs := by
  rw [vsize]

@[simp]
theorem vsize_obj (kvs : List (String × Value)) :
    vsize (.obj kvs) = 1 + vsizeO kvs := by
  rw [vsize]

@[simp]
theorem vsizeL_nil : vsizeL [] = 0 := by rw [vsizeL]

@[simp]
theorem vsizeL_cons (v : Value) (vs : List Value) :
    vsizeL (v :: vs) = vsize v + vsizeL vs := by rw [vsizeL]

@[simp]
theorem vsizeO_nil : vsizeO [] = 0 := by rw [vsizeO]

@[simp]
theorem vsizeO_cons (p : String × Value) (r : List (String × Value)) :
    vsizeO (p :: r) = vsize p.2 + vsizeO r := by
  obtain ⟨k, v⟩ := p
  rw [vsizeO]

theorem vsize_pos (v : Value) : 0 < vsize v := by
  cases v <;> rw [vsize] <;> omega

theorem removeKey_vsize {name : String} {kvs : List (String × Value)}
    {v : Value} {rest : List (String × Value)}
    (h : removeKey name kvs = some (v, rest)) :
    vsize v + vsizeO rest = vsizeO kvs := by
  induction kvs generalizing rest with
  | nil => simp [removeKey] at h
  | cons p t ih =>
    obtain ⟨k, w⟩ := p
    simp only [removeKey] at h
    split at h
    · cases h
      simp
    · revert h
      split
      · intro h; cases h
      · rename_i v' rest' hrec
        intro h
        cases h
        have := ih hrec
        simp only [vsizeO_cons] at this ⊢
        omega

theorem getString_size {keys : List (String × Value)} {name : String}
    {s : String} {rest : List (String × Value)}
    (h : getString keys name = .ok (s, rest)) : vsizeO rest < vsizeO keys := by
  unfold getString at h
  split at h
  · cases h
  · rename_i heq
    cases h
    have := removeKey_vsize heq
    have := vsize_pos (.str s)
    omega
  · cases h

theorem getArray_size {keys : List (String × Value)} {name : String}
    {xs : List Value} {rest : List (String × Value)}
    (h : getArray keys name = .ok (xs, rest)) : vsizeO rest < vsizeO keys := by
  unfold getArray at h
  split at h
  · cases h
  · rename_i heq
    cases h
    have := removeKey_vsize heq
    have := vsize_pos (.arr xs)
    omega
  · cases h

theorem getObject_size {keys : List (String × Value)} {name : String}
    {m rest : List (String × Value)}
    (h : getObject keys name = .ok (m, rest)) :
    vsizeO m < vsizeO keys ∧ vsizeO rest < vsizeO keys := by
  unfold getObject at h
  split at h
  · cases h
  · rename_i heq
    cases h
    have := removeKey_vsize heq
    simp only [vsize_obj] at this
    omega
  · cases h

theorem get_int_size {keys : List (String × Value)} {name : String}
    {n : Nat} {rest : List (String × Value)}
    (h : get_int keys name = .ok (n, rest)) : vsizeO rest < vsizeO keys := by
  unfold get_int at h
  rcases hg : getNumber keys name with e | p
  · simp only [hg, bindE_error] at h
    cases h
  · simp only [hg, bindE_ok] at h
    rcases ho : optUnwrap p.1.asU64 with e | v
    · simp only [ho, bindE_error] at h
      cases h
    · simp only [ho, bindE_ok, pureE] at h
      cases h
      unfold getNumber at hg
      split at hg
      · cases hg
      · rename_i n' rest' heq
        cases hg
        have := removeKey_vsize heq
        have := vsize_pos (.num n')
        show vsizeO rest' < vsizeO keys
        omega
      · cases hg

@[simp]
theorem bind_eq_ok {α β : Type} {x : Except Failure α} {f : α → Except Failure β}
    {b : β} : (x >>= f) = .ok b ↔ ∃ a, x = .ok a ∧ f a = .ok b := by
  cases x <;> simp

@[simp]
theorem bind_eq_error {α β : Type} {x : Except Failure α} {f : α → Except Failure β}
    {e : Failure} :
    (x >>= f) = .error e ↔ x = .error e ∨ ∃ a, x = .ok a ∧ f a = .error e := by
  cases x <;> simp

@[simp]
theorem optUnwrap_ok {α : Type} {o : Option α} {a : α} :
    optUnwrap o = .ok a ↔ o = some a := by
  cases o <;> simp [optUnwrap]

set_option maxHeartbeats 1600000 in
theorem parse_step_core_pend_size {step : Value} {a : List Nat} {g vl : Nat}
    {d : List Nat} {ol st si ei : Nat} {toAddr : List Nat} {w : Value}
    (h : parse_step_core step = .ok (.pend a g vl d ol st si ei toAddr w)) :
    vsize w < vsize step := by
  cases step with
  | obj keys0 =>
    unfold parse_step_core at h
    simp only [bind_eq_ok] at h
    obtain ⟨pn, h1, pa, h2, po, h3, ps, h4, pe, h5, h⟩ := h
    have s1 := getString_size h1
    have s2 := getArray_size h2
    have s3 := getArray_size h3
    have s4 := get_int_size h4
    have s5 := get_int_size h5
    repeat' split at h
    all_goals simp only [bind_eq_ok, optUnwrap_ok, pureE, Except.ok.injEq,
      StepOut.pend.injEq, reduceCtorEq, and_false, false_and, exists_false] at h
    obtain ⟨a20, _, addr, _, g8, _, gas, _, v32, _, value, _, dRest, _, data, _,
      o4, _, outsLen, _, o1, _, status, _, pi1, hinfo, pad, haddrObj, av, _,
      pst, hsteps, ta, _, heqs⟩ := h
    obtain ⟨_, _, _, _, _, _, _, _, _, hw⟩ := heqs
    have s6 := getObject_size hinfo
    have s7 := getObject_size haddrObj
    have s8 := removeKey_vsize hsteps
    have s9 := vsize_pos pst.1
    simp only [vsize_obj]
    subst hw
    omega
  | null => simp [parse_step_core] at h
  | bool b => simp [parse_step_core] at h
  | num n => simp [parse_step_core] at h
  | str s => simp [parse_step_core] at h
  | arr l => simp [parse_step_core] at h

/-- `TraceFrame::parse_frame`: decode a step array into a frame, recursing
into nested `call_contract` frames. The source's for-loop with `push` and
`continue` is modelled by prepending each retained hostio to the frame
decoded from the remaining steps; errors abort at the first failing step,
in source order. -/
def parse_frame (address : Option (List Nat)) (v : Value) :
    Except Failure TraceFrame :=
  match v with
  | .arr [] => .ok (.mk [] address)
  | .arr (s :: rest) =>
    match parse_step_core s with
    | .error e => .error e
    | .ok (.done oh) =>
      match parse_frame address (.arr rest) with
      | .error e => .error e
      | .ok fr =>
        .ok (.mk (match oh with | some hio => hio :: fr.steps | none => fr.steps)
          address)
    | .ok (.pend a g vl d ol st si ei toAddr stepsVal) =>
      -- The size guard always holds (`parse_step_core_pend_size`); it only
      -- justifies termination and its else-branch is dead code.
      if _hw : vsize stepsVal < vsize s then
        match parse_frame (some toAddr) stepsVal with
        | .error e => .error e
        | .ok inner =>
          match parse_frame address (.arr rest) with
          | .error e => .error e
          | .ok fr =>
            .ok (.mk (Hostio.mk (.callContract a g vl d ol st inner) si ei ::
              fr.steps) address)
      else .error (.panic .unwrapNone)
  | x => .error (.diag (.notAnArray x))
termination_by vsize v
decreasing_by
  all_goals simp only [vsize_arr, vsizeL_cons]
  all_goals have := vsize_pos s
  all_goals omega

/-- The decode of one step, nested recursion included: `none` when the step
is a dropped marker, `some hostio` otherwise. -/
def parse_step (s : Value) : Except Failure (Option Hostio) :=
  match parse_step_core s with
  | .error e => .error e
  | .ok (.done oh) => .ok oh
  | .ok (.pend a g vl d ol st si ei toAddr stepsVal) =>
    match parse_frame (some toAddr) stepsVal with
    | .error e => .error e
    | .ok inner => .ok (some (.mk (.callContract a g vl d ol st inner) si ei))

theorem parse_frame_nil (a : Option (List Nat)) :
    parse_frame a (.arr []) = .ok (.mk [] a) := by
  rw [parse_frame.eq_def]

theorem parse_frame_cons (a : Option (List Nat)) (s : Value) (rest : List Value) :
    parse_frame a (.arr (s :: rest)) =
      match parse_step s with
      | .error e => .error e
      | .ok oh =>
        match parse_frame a (.arr rest) with
        | .error e => .error e
        | .ok fr =>
          .ok (.mk (match oh with | some hio => hio :: fr.steps | none => fr.steps)
            a) := by
  rw [parse_frame.eq_def]
  unfold parse_step
  rcases hcore : parse_step_core s with e | out
  · simp [hcore]
  · rcases out with oh | ⟨a' , g', vl', d', ol', st', si', ei', toAddr', stepsVal'⟩
    · simp [hcore]
    · simp only [hcore]
      rw [dif_pos (parse_step_core_pend_size hcore)]
      rcases hinner : parse_frame (some toAddr') stepsVal' with e | inner
      · simp [hinner]
      · rcases hrest : parse_frame a (.arr rest) with e | fr
        · simp [hinner, hrest]
        · simp [hinner, hrest]

/-! ## Byte-level characterizations -/

/-- The JSON rendering of a byte list: each byte as an integer number. -/
def bytesToValues (bs : List Nat) : List Value :=
  bs.map (fun b : Nat => .num (.int (b : Int)))

/-- A JSON value that `to_data` accepts as one byte. -/
def isByte (v : Value) : Prop := ∃ b : Nat, b ≤ 255 ∧ v = .num (.int b)

/-- Big-endian byte rendering of a number at a given width (the inverse of
`beNat` on in-range inputs). -/
def beBytes : Nat → Nat → List Nat
  | 0, _ => []
  | w + 1, n => n / 256 ^ w % 256 :: beBytes w n

theorem asU64_int (b : Nat) (hb : b < 2 ^ 64) : JNum.asU64 (.int b) = some b := by
  simp only [JNum.asU64]
  rw [if_pos]
  · simp
  · exact ⟨Int.natCast_nonneg b, by exact_mod_cast hb⟩

theorem asU64_inv {n : JNum} {k : Nat} (h : n.asU64 = some k) : n = .int k := by
  cases n with
  | int m =>
    simp only [JNum.asU64] at h
    split at h
    · cases h
      rename_i hc
      congr 1
      omega
    · cases h
  | frac => simp [JNum.asU64] at h

theorem to_data_ok_inv {data : List Value} {bs : List Nat}
    (h : to_data data = .ok bs) :
    data = bytesToValues bs ∧ ∀ b ∈ bs, b ≤ 255 := by
  induction data generalizing bs with
  | nil =>
    simp only [to_data] at h
    cases h
    simp [bytesToValues]
  | cons v vs ih =>
    unfold to_data at h
    split at h
    · rename_i n
      split at h
      · cases h
      · rename_i byte hb
        split at h
        · cases h
        · rename_i hle
          simp only [bind_eq_ok, pureE, Except.ok.injEq] at h
          obtain ⟨bs', hbs', rfl⟩ := h
          obtain ⟨rfl, hall⟩ := ih hbs'
          refine ⟨?_, ?_⟩
          · simp only [bytesToValues, List.map_cons]
            rw [asU64_inv hb]
          · intro b hbmem
            rcases List.mem_cons.1 hbmem with rfl | hmem
            · omega
            · exact hall b hmem
    · cases h

theorem to_data_cons_num (n : JNum) (vs : List Value) :
    to_data (Value.num n :: vs) =
      match n.asU64 with
      | none => .error (.panic .unwrapNone)
      | some byte =>
        if byte > 255 then .error (.diag (.byteOutOfRange byte))
        else to_data vs >>= fun bs => pure (byte :: bs) := rfl

theorem to_data_bytes (bs : List Nat) (h : ∀ b ∈ bs, b ≤ 255) :
    to_data (bytesToValues bs) = .ok bs := by
  induction bs with
  | nil => rfl
  | cons b t ih =>
    have hb : b ≤ 255 := h b (List.mem_cons_self b t)
    have ht := ih fun x hx => h x (List.mem_cons_of_mem b hx)
    simp only [bytesToValues, List.map_cons] at ht ⊢
    rw [to_data_cons_num, asU64_int b (by omega)]
    simp [show ¬(b > 255) from by omega, ht]

theorem exists_bytes_of_isByte {data : List Value} (h : ∀ v ∈ data, isByte v) :
    ∃ bs, data = bytesToValues bs ∧ ∀ b ∈ bs, b ≤ 255 := by
  induction data with
  | nil => exact ⟨[], rfl, by simp⟩
  | cons v vs ih =>
    obtain ⟨b, hb, rfl⟩ := h v (List.mem_cons_self v vs)
    obtain ⟨bs, rfl, hall⟩ := ih fun x hx => h x (List.mem_cons_of_mem _ hx)
    refine ⟨b :: bs, by simp [bytesToValues], ?_⟩
    intro x hx
    rcases List.mem_cons.1 hx with rfl | hx
    · exact hb
    · exact hall x hx

theorem conv_nat_ok_iff (w : Nat) (ty : String) (data : List Value) :
    (∃ n, (to_data data >>= fun d =>
        if d.length ≠ w then .error (.diag (.wrongWidth ty d)) else pure (beNat d))
      = .ok n) ↔ data.length = w ∧ ∀ v ∈ data, isByte v := by
  constructor
  · rintro ⟨n, hn⟩
    simp only [bind_eq_ok] at hn
    obtain ⟨d, hd, hif⟩ := hn
    split at hif
    · cases hif
    · rename_i hlen
      obtain ⟨rfl, hall⟩ := to_data_ok_inv hd
      refine ⟨by simp [bytesToValues]; omega, ?_⟩
      intro v hv
      simp only [bytesToValues, List.mem_map] at hv
      obtain ⟨b, hb, rfl⟩ := hv
      exact ⟨b, hall b hb, rfl⟩
  · rintro ⟨hlen, hbytes⟩
    obtain ⟨bs, rfl, hall⟩ := exists_bytes_of_isByte hbytes
    refine ⟨beNat bs, ?_⟩
    rw [to_data_bytes bs hall]
    simp only [bytesToValues, List.length_map] at hlen
    simp [hlen]

theorem conv_list_ok_iff (w : Nat) (ty : String) (data : List Value) :
    (∃ out, (to_data data >>= fun d =>
        if d.length ≠ w then .error (.diag (.wrongWidth ty d)) else pure d)
      = .ok out) ↔ data.length = w ∧ ∀ v ∈ data, isByte v := by
  constructor
  · rintro ⟨out, hn⟩
    simp only [bind_eq_ok] at hn
    obtain ⟨d, hd, hif⟩ := hn
    split at hif
    · cases hif
    · rename_i hlen
      obtain ⟨rfl, hall⟩ := to_data_ok_inv hd
      refine ⟨by simp [bytesToValues]; omega, ?_⟩
      intro v hv
      simp only [bytesToValues, List.mem_map] at hv
      obtain ⟨b, hb, rfl⟩ := hv
      exact ⟨b, hall b hb, rfl⟩
  · rintro ⟨hlen, hbytes⟩
    obtain ⟨bs, rfl, hall⟩ := exists_bytes_of_isByte hbytes
    refine ⟨bs, ?_⟩
    rw [to_data_bytes bs hall]
    simp only [bytesToValues, List.length_map] at hlen
    simp [hlen]

/-- C7 counterexample: a fractional (non-u64) number element is a
violation of the byte contract, yet the conversion fails with a bare
unwrap panic carrying no type, field or value diagnostic — refuting the
claim that any violation fails with a decode error naming them. -/
theorem c7_counterexample :
    to_u8 [Value.num .frac] = .error (.panic .unwrapNone) := rfl

/-- C7 (amended): each fixed-width conversion succeeds exactly when the
input array's length equals the target width and every element is an
integer in `[0, 255]`; the conversions are pure, and a violation always
fails — with a diagnostic naming the type or offending value when the
bad element is a non-number or an integer in `[256, 2^64)`, but with a
bare panic when it is negative, fractional, or at least `2^64`. -/
theorem c7_conversion_contract (data : List Value) :
    ((∃ n, to_u8 data = .ok n) ↔ data.length = 1 ∧ ∀ v ∈ data, isByte v)
    ∧ ((∃ n, to_u16 data = .ok n) ↔ data.length = 2 ∧ ∀ v ∈ data, isByte v)
    ∧ ((∃ n, to_u32 data = .ok n) ↔ data.length = 4 ∧ ∀ v ∈ data, isByte v)
    ∧ ((∃ n, to_u64 data = .ok n) ↔ data.length = 8 ∧ ∀ v ∈ data, isByte v)
    ∧ ((∃ n, to_u256 data = .ok n) ↔ data.length = 32 ∧ ∀ v ∈ data, isByte v)
    ∧ ((∃ bs, to_b256 data = .ok bs) ↔ data.length = 32 ∧ ∀ v ∈ data, isByte v)
    ∧ ((∃ bs, to_address data = .ok bs) ↔ data.length = 20 ∧ ∀ v ∈ data, isByte v) :=
  ⟨conv_nat_ok_iff 1 "u8" data, conv_nat_ok_iff 2 "u16" data,
    conv_nat_ok_iff 4 "u32" data, conv_nat_ok_iff 8 "u64" data,
    conv_nat_ok_iff 32 "U256" data, conv_list_ok_iff 32 "B256" data,
    conv_list_ok_iff 20 "Address" data⟩

/-- C7 witness: the contract applied to the concrete one-byte array `[7]`
(success direction) and, via the same theorem, failure on a wrong-width
input. -/
theorem c7_witness :
    (∃ n, to_u8 [Value.num (.int 7)] = .ok n)
      ∧ ¬∃ n, to_u16 [Value.num (.int 7)] = .ok n := by
  constructor
  · exact (c7_conversion_contract [Value.num (.int 7)]).1.mpr
      ⟨rfl, by intro v hv; simp at hv; exact ⟨7, by omega, hv⟩⟩
  · intro hex
    have := ((c7_conversion_contract [Value.num (.int 7)]).2.1.mp hex).1
    simp at this

/-! ## Field lookup and the per-step inversion principle -/

/-- The `name` field of a step object, if present and a string. -/
def stepName (s : Value) : Option String :=
  match s with
  | .obj kvs =>
    match lookupFirst "name" kvs with
    | some (.str n) => some n
    | _ => none
  | _ => none

/-- A field of a step object, if the step is an object. -/
def getField (s : Value) (name : String) : Option Value :=
  match s with
  | .obj kvs => lookupFirst name kvs
  | _ => none

theorem removeKey_lookup {a : String} {kvs : List (String × Value)}
    {v : Value} {rest : List (String × Value)}
    (h : removeKey a kvs = some (v, rest)) : lookupFirst a kvs = some v := by
  induction kvs generalizing rest with
  | nil => simp [removeKey] at h
  | cons p t ih =>
    obtain ⟨k, w⟩ := p
    simp only [removeKey] at h
    simp only [lookupFirst]
    split at h
    · rename_i hk
      cases h
      rw [if_pos hk]
    · rename_i hk
      rw [if_neg hk]
      revert h
      split
      · intro h; cases h
      · rename_i v' rest' hrec
        intro h
        cases h
        exact ih hrec

theorem removeKey_stable {a b : String} {kvs : List (String × Value)}
    {v : Value} {rest : List (String × Value)}
    (h : removeKey a kvs = some (v, rest)) (hne : b ≠ a) :
    lookupFirst b rest = lookupFirst b kvs := by
  induction kvs generalizing rest with
  | nil => simp [removeKey] at h
  | cons p t ih =>
    obtain ⟨k, w⟩ := p
    simp only [removeKey] at h
    split at h
    · rename_i hk
      cases h
      simp only [lookupFirst]
      rw [if_neg (by rw [hk]; exact fun hc => hne hc.symm)]
    · rename_i hk
      revert h
      split
      · intro h; cases h
      · rename_i v' rest' hrec
        intro h
        cases h
        simp only [lookupFirst]
        split
        · rfl
        · exact ih hrec

theorem getString_lookup {keys : List (String × Value)} {n : String}
    {p : String × List (String × Value)} (h : getString keys n = .ok p) :
    lookupFirst n keys = some (.str p.1)
      ∧ ∀ b, b ≠ n → lookupFirst b p.2 = lookupFirst b keys := by
  unfold getString at h
  split at h
  · cases h
  · rename_i heq
    cases h
    exact ⟨removeKey_lookup heq, fun b hb => removeKey_stable heq hb⟩
  · cases h

theorem getArray_lookup {keys : List (String × Value)} {n : String}
    {p : List Value × List (String × Value)} (h : getArray keys n = .ok p) :
    lookupFirst n keys = some (.arr p.1)
      ∧ ∀ b, b ≠ n → lookupFirst b p.2 = lookupFirst b keys := by
  unfold getArray at h
  split at h
  · cases h
  · rename_i heq
    cases h
    exact ⟨removeKey_lookup heq, fun b hb => removeKey_stable heq hb⟩
  · cases h

theorem getObject_lookup {keys : List (String × Value)} {n : String}
    {p : List (String × Value) × List (String × Value)}
    (h : getObject keys n = .ok p) :
    lookupFirst n keys = some (.obj p.1)
      ∧ ∀ b, b ≠ n → lookupFirst b p.2 = lookupFirst b keys := by
  unfold getObject at h
  split at h
  · cases h
  · rename_i heq
    cases h
    exact ⟨removeKey_lookup heq, fun b hb => removeKey_stable heq hb⟩
  · cases h

theorem get_int_lookup {keys : List (String × Value)} {n : String}
    {p : Nat × List (String × Value)} (h : get_int keys n = .ok p) :
    lookupFirst n keys = some (.num (.int (p.1 : Int)))
      ∧ ∀ b, b ≠ n → lookupFirst b p.2 = lookupFirst b keys := by
  unfold get_int at h
  rcases hg : getNumber keys n with e | q
  · simp only [hg, bindE_error] at h
    cases h
  · simp only [hg, bindE_ok] at h
    rcases ho : optUnwrap q.1.asU64 with e | v
    · simp only [ho, bindE_error] at h
      cases h
    · simp only [ho, bindE_ok, pureE] at h
      cases h
      rw [optUnwrap_ok] at ho
      unfold getNumber at hg
      split at hg
      · cases hg
      · rename_i jn rest heq
        cases hg
        have hj : jn = .int (v : Int) := asU64_inv ho
        subst hj
        exact ⟨removeKey_lookup heq, fun b hb => removeKey_stable heq hb⟩
      · cases hg

/-- All intermediate results of decoding a `call_contract` step's fixed
sub-fields and of the `frame!` macro. -/
def CallFields (args outs : List Value) (keys5 : List (String × Value))
    (addr : List Nat) (gas value : Nat) (data : List Nat) (outsLen status : Nat)
    (toAddr : List Nat) (stepsVal : Value) : Prop :=
  ∃ a20 g8 v32 dRest o4 o1 pi1 pad addrVals pst,
    sliceRange args 0 20 = .ok a20 ∧ to_address a20 = .ok addr
    ∧ sliceRange args 20 28 = .ok g8 ∧ to_u64 g8 = .ok gas
    ∧ sliceRange args 28 60 = .ok v32 ∧ to_u256 v32 = .ok value
    ∧ sliceFrom args 60 = .ok dRest ∧ to_data dRest = .ok data
    ∧ sliceRange outs 0 4 = .ok o4 ∧ to_u32 o4 = .ok outsLen
    ∧ sliceFrom outs 4 = .ok o1 ∧ to_u8 o1 = .ok status
    ∧ getObject keys5 "info" = .ok pi1
    ∧ getObject pi1.1 "address" = .ok pad
    ∧ sort_address pad.1 = .ok addrVals
    ∧ removeKey "steps" pad.2 = some pst
    ∧ to_address addrVals = .ok toAddr
    ∧ stepsVal = pst.1

/-- What a successful `parse_step_core` implies: the step was an object,
all five required fields extracted (in source order), and the result
corresponds to the step's name through exactly one dispatch branch. -/
theorem parse_step_core_ok_inv {s : Value} {r : StepOut}
    (h : parse_step_core s = .ok r) :
    ∃ keys0 pn pa po ps pe,
      s = .obj keys0
      ∧ getString keys0 "name" = .ok pn
      ∧ getArray pn.2 "args" = .ok pa
      ∧ getArray pa.2 "outs" = .ok po
      ∧ get_int po.2 "startInk" = .ok ps
      ∧ get_int ps.2 "endInk" = .ok pe
      ∧ ((pn.1 = "read_args" ∧ ∃ d, to_data po.1 = .ok d
            ∧ r = .done (some (.mk (.readArgs d) ps.1 pe.1)))
        ∨ (pn.1 = "write_result" ∧ ∃ d, to_data pa.1 = .ok d
            ∧ r = .done (some (.mk (.writeResult d) ps.1 pe.1)))
        ∨ (pn.1 = "msg_value" ∧ ∃ v, to_b256 po.1 = .ok v
            ∧ r = .done (some (.mk (.msgValue v) ps.1 pe.1)))
        ∨ (pn.1 = "memory_grow" ∧ ∃ p, to_u16 pa.1 = .ok p
            ∧ r = .done (some (.mk (.memoryGrow p) ps.1 pe.1)))
        ∨ (pn.1 = "contract_address" ∧ ∃ a, to_address po.1 = .ok a
            ∧ r = .done (some (.mk (.contractAddress a) ps.1 pe.1)))
        ∨ (pn.1 = "call_contract"
            ∧ ∃ addr gas value data outsLen status toAddr stepsVal,
              CallFields pa.1 po.1 pe.2 addr gas value data outsLen status
                toAddr stepsVal
              ∧ r = .pend addr gas value data outsLen status ps.1 pe.1
                  toAddr stepsVal)
        ∨ ((pn.1 = "user_entrypoint" ∨ pn.1 = "user_returned")
            ∧ r = .done none)) := by
  cases s with
  | obj keys0 =>
    unfold parse_step_core at h
    simp only [bind_eq_ok] at h
    obtain ⟨pn, h1, pa, h2, po, h3, ps, h4, pe, h5, h⟩ := h
    refine ⟨keys0, pn, pa, po, ps, pe, rfl, h1, h2, h3, h4, h5, ?_⟩
    by_cases hn1 : pn.1 = "read_args"
    · rw [if_pos hn1] at h
      simp only [bind_eq_ok, pureE, Except.ok.injEq] at h
      obtain ⟨d, hd, hr⟩ := h
      exact Or.inl ⟨hn1, d, hd, hr.symm⟩
    rw [if_neg hn1] at h
    by_cases hn2 : pn.1 = "write_result"
    · rw [if_pos hn2] at h
      simp only [bind_eq_ok, pureE, Except.ok.injEq] at h
      obtain ⟨d, hd, hr⟩ := h
      exact Or.inr (Or.inl ⟨hn2, d, hd, hr.symm⟩)
    rw [if_neg hn2] at h
    by_cases hn3 : pn.1 = "msg_value"
    · rw [if_pos hn3] at h
      simp only [bind_eq_ok, pureE, Except.ok.injEq] at h
      obtain ⟨v, hv, hr⟩ := h
      exact Or.inr (Or.inr (Or.inl ⟨hn3, v, hv, hr.symm⟩))
    rw [if_neg hn3] at h
    by_cases hn4 : pn.1 = "memory_grow"
    · rw [if_pos hn4] at h
      simp only [bind_eq_ok, pureE, Except.ok.injEq] at h
      obtain ⟨p, hp, hr⟩ := h
      exact Or.inr (Or.inr (Or.inr (Or.inl ⟨hn4, p, hp, hr.symm⟩)))
    rw [if_neg hn4] at h
    by_cases hn5 : pn.1 = "contract_address"
    · rw [if_pos hn5] at h
      simp only [bind_eq_ok, pureE, Except.ok.injEq] at h
      obtain ⟨a, ha, hr⟩ := h
      exact Or.inr (Or.inr (Or.inr (Or.inr (Or.inl ⟨hn5, a, ha, hr.symm⟩))))
    rw [if_neg hn5] at h
    by_cases hn6 : pn.1 = "call_contract"
    · rw [if_pos hn6] at h
      simp only [bind_eq_ok, optUnwrap_ok, pureE, Except.ok.injEq] at h
      obtain ⟨a20, ha20, addr, haddr, g8, hg8, gas, hgas, v32, hv32, value,
        hvalue, dRest, hdRest, data, hdata, o4, ho4, outsLen, hol, o1, ho1,
        status, hst, pi1, hinfo, pad, hpad, addrVals, hsort, pst, hsteps, ta,
        hta, hr⟩ := h
      refine Or.inr (Or.inr (Or.inr (Or.inr (Or.inr (Or.inl
        ⟨hn6, addr, gas, value, data, outsLen, status, ta, pst.1, ?_, hr.symm⟩)))))
      exact ⟨a20, g8, v32, dRest, o4, o1, pi1, pad, addrVals, pst,
        ha20, haddr, hg8, hgas, hv32, hvalue, hdRest, hdata, ho4, hol, ho1,
        hst, hinfo, hpad, hsort, hsteps, hta, rfl⟩
    rw [if_neg hn6] at h
    by_cases hn7 : pn.1 = "user_entrypoint"
    · rw [if_pos hn7] at h
      simp only [pureE, Except.ok.injEq] at h
      exact Or.inr (Or.inr (Or.inr (Or.inr (Or.inr (Or.inr
        ⟨Or.inl hn7, h.symm⟩)))))
    rw [if_neg hn7] at h
    by_cases hn8 : pn.1 = "user_returned"
    · rw [if_pos hn8] at h
      simp only [pureE, Except.ok.injEq] at h
      exact Or.inr (Or.inr (Or.inr (Or.inr (Or.inr (Or.inr
        ⟨Or.inr hn8, h.symm⟩)))))
    rw [if_neg hn8] at h
    cases h
  | null => simp [parse_step_core] at h
  | bool b => simp [parse_step_core] at h
  | num n => simp [parse_step_core] at h
  | str s => simp [parse_step_core] at h
  | arr l => simp [parse_step_core] at h

/-- The hostio retained from one input step (`none` when the step is a
dropped marker or fails to decode). -/
def decodedHostio (s : Value) : Option Hostio :=
  match parse_step s with
  | .ok oh => oh
  | .error _ => none

theorem parse_step_ok_core {s : Value} {oh : Option Hostio}
    (h : parse_step s = .ok oh) : ∃ r, parse_step_core s = .ok r := by
  unfold parse_step at h
  split at h
  · cases h
  · rename_i heq
    exact ⟨_, heq⟩
  · rename_i heq
    exact ⟨_, heq⟩

/-- A decoded frame is exactly the per-step decodes of its input, in input
order, and each input step decoded successfully. -/
theorem parse_frame_ok_inv {a : Option (List Nat)} {steps : List Value}
    {fr : TraceFrame} (h : parse_frame a (.arr steps) = .ok fr) :
    fr = .mk (steps.filterMap decodedHostio) a
      ∧ ∀ s ∈ steps, ∃ oh, parse_step s = .ok oh := by
  induction steps generalizing fr with
  | nil =>
    rw [parse_frame_nil] at h
    cases h
    simp
  | cons s rest ih =>
    rw [parse_frame_cons] at h
    rcases hs : parse_step s with e | oh
    · simp only [hs] at h
      cases h
    · simp only [hs] at h
      rcases hr : parse_frame a (.arr rest) with e | fr'
      · simp only [hr] at h
        cases h
      · simp only [hr] at h
        obtain ⟨hfr', hall⟩ := ih hr
        cases h
        subst hfr'
        constructor
        · cases oh <;>
            simp [List.filterMap_cons, decodedHostio, hs, TraceFrame.steps]
        · intro x hx
          rcases List.mem_cons.1 hx with rfl | hx
          · exact ⟨oh, hs⟩
          · exact hall x hx

/-- The host operation names the decoder recognizes. -/
def recognizedNames : List String :=
  ["read_args", "write_result", "msg_value", "memory_grow",
   "contract_address", "call_contract", "user_entrypoint", "user_returned"]

theorem parse_step_core_name {s : Value} {r : StepOut}
    (h : parse_step_core s = .ok r) :
    ∃ nm, stepName s = some nm ∧ nm ∈ recognizedNames := by
  obtain ⟨keys0, pn, pa, po, ps, pe, rfl, h1, _, _, _, _, hbr⟩ :=
    parse_step_core_ok_inv h
  obtain ⟨hl, _⟩ := getString_lookup h1
  refine ⟨pn.1, by simp [stepName, hl], ?_⟩
  rcases hbr with ⟨hn, _⟩ | ⟨hn, _⟩ | ⟨hn, _⟩ | ⟨hn, _⟩ | ⟨hn, _⟩ | ⟨hn, _⟩
    | ⟨hn, _⟩ <;> first
  | (rw [hn]; simp [recognizedNames])
  | (rcases hn with hn | hn <;> rw [hn] <;> simp [recognizedNames])

/-- The step named `"frobnicate"` used for the C8 example. -/
def frobStep : Value :=
  .obj [("name", .str "frobnicate"), ("args", .arr []), ("outs", .arr []),
    ("startInk", .num (.int 1)), ("endInk", .num (.int 1))]

/-- C8: a step whose name is none of the recognized host operations never
survives decoding: any successfully decoded step array contains only
recognized names (so an unknown step is never silently skipped and never
appears in the decoded frame), and decoding the step named `"frobnicate"`
fails fatally with the unsupported-operation panic naming it. -/
theorem c8_unknown_operation_fatal :
    (∀ (a : Option (List Nat)) (steps : List Value) (fr : TraceFrame),
        parse_frame a (.arr steps) = .ok fr →
        ∀ s ∈ steps, ∃ nm, stepName s = some nm ∧ nm ∈ recognizedNames)
    ∧ parse_frame none (.arr [frobStep])
        = .error (.panic (.todo "frobnicate")) := by
  constructor
  · intro a steps fr h s hs
    obtain ⟨_, hall⟩ := parse_frame_ok_inv h
    obtain ⟨oh, hoh⟩ := hall s hs
    obtain ⟨r, hr⟩ := parse_step_ok_core hoh
    exact parse_step_core_name hr
  · rw [parse_frame_cons]
    rfl

/-- The marker step used in several examples. -/
def uepStep : Value :=
  .obj [("name", .str "user_entrypoint"), ("args", .arr []), ("outs", .arr []),
    ("startInk", .num (.int 1)), ("endInk", .num (.int 1))]

/-- C8 witness: the general part applied to a concrete decode of a single
marker step. -/
theorem c8_witness :
    ∃ nm, stepName uepStep = some nm ∧ nm ∈ recognizedNames :=
  c8_unknown_operation_fatal.1 none [uepStep] (.mk [] none)
    (by rw [parse_frame_cons, parse_frame_nil]; rfl) uepStep
    (List.mem_singleton.2 rfl)

/-- A successfully decoded step is dropped exactly when it is one of the
two lifecycle markers. -/
theorem parse_step_marker_iff {s : Value} {oh : Option Hostio}
    (h : parse_step s = .ok oh) :
    oh = none ↔ (stepName s = some "user_entrypoint"
      ∨ stepName s = some "user_returned") := by
  unfold parse_step at h
  split at h
  · cases h
  · rename_i oh' hcore
    cases h
    obtain ⟨keys0, pn, pa, po, ps, pe, rfl, h1, _h2, _h3, _h4, _h5, hbr⟩ :=
      parse_step_core_ok_inv hcore
    have hsn : stepName (.obj keys0) = some pn.1 := by
      simp [stepName, (getString_lookup h1).1]
    rw [hsn]
    rcases hbr with ⟨hn, d, _, hr⟩ | ⟨hn, d, _, hr⟩ | ⟨hn, v, _, hr⟩
      | ⟨hn, p, _, hr⟩ | ⟨hn, a', _, hr⟩
      | ⟨hn, x1, x2, x3, x4, x5, x6, x7, x8, _, hr⟩ | ⟨hn, hr⟩
    · injection hr with hx; subst hx; simp [hn]
    · injection hr with hx; subst hx; simp [hn]
    · injection hr with hx; subst hx; simp [hn]
    · injection hr with hx; subst hx; simp [hn]
    · injection hr with hx; subst hx; simp [hn]
    · simp at hr
    · injection hr with hx
      subst hx
      rcases hn with hn | hn <;> simp [hn]
  · rename_i a g vl d ol st si ei toAddr stepsVal hcore
    split at h
    · cases h
    · rename_i inner hinner
      cases h
      obtain ⟨keys0, pn, pa, po, ps, pe, rfl, h1, _h2, _h3, _h4, _h5, hbr⟩ :=
        parse_step_core_ok_inv hcore
      have hsn : stepName (.obj keys0) = some pn.1 := by
        simp [stepName, (getString_lookup h1).1]
      rw [hsn]
      rcases hbr with ⟨hn, _, _, hr⟩ | ⟨hn, _, _, hr⟩ | ⟨hn, _, _, hr⟩
        | ⟨hn, _, _, hr⟩ | ⟨hn, _, _, hr⟩
        | ⟨hn, x1, x2, x3, x4, x5, x6, x7, x8, _, hr⟩ | ⟨hn, hr⟩
      · simp at hr
      · simp at hr
      · simp at hr
      · simp at hr
      · simp at hr
      · simp [hn]
      · simp at hr

/-- The `read_args` step of the C5 end-to-end example. -/
def raStep : Value :=
  .obj [("name", .str "read_args"), ("args", .arr []),
    ("outs", .arr (bytesToValues [1, 2, 3, 4])),
    ("startInk", .num (.int 100)), ("endInk", .num (.int 90))]

/-- The `user_returned` marker step used in examples. -/
def urStep : Value :=
  .obj [("name", .str "user_returned"), ("args", .arr []), ("outs", .arr []),
    ("startInk", .num (.int 1)), ("endInk", .num (.int 1))]

/-- C5: decoding preserves order and drops exactly the markers: a decoded
frame's step list is the input list's per-step decodes in input order, every
input step decodes successfully, and a step is dropped precisely when its
name is `user_entrypoint` or `user_returned`; the concrete input
`[user_entrypoint, read_args (outs [1,2,3,4], ink 100/90), user_returned]`
decodes to exactly one step, `ReadArgs [1,2,3,4]`. -/
theorem c5_order_and_marker_filtering :
    (∀ (a : Option (List Nat)) (steps : List Value) (fr : TraceFrame),
        parse_frame a (.arr steps) = .ok fr →
        fr.steps = steps.filterMap decodedHostio
        ∧ ∀ s ∈ steps, ∃ oh, parse_step s = .ok oh
            ∧ (oh = none ↔ (stepName s = some "user_entrypoint"
                ∨ stepName s = some "user_returned")))
    ∧ parse_frame none (.arr [uepStep, raStep, urStep])
        = .ok (.mk [.mk (.readArgs [1, 2, 3, 4]) 100 90] none) := by
  constructor
  · intro a steps fr h
    obtain ⟨hfr, hall⟩ := parse_frame_ok_inv h
    refine ⟨by rw [hfr]; rfl, ?_⟩
    intro s hs
    obtain ⟨oh, hoh⟩ := hall s hs
    exact ⟨oh, hoh, parse_step_marker_iff hoh⟩
  · rw [parse_frame_cons, parse_frame_cons, parse_frame_cons, parse_frame_nil]
    rfl

/-- C5 witness: the general part applied to the concrete single-marker
decode. -/
theorem c5_witness :
    (TraceFrame.mk [] none).steps = [uepStep].filterMap decodedHostio
      ∧ ∀ s ∈ [uepStep], ∃ oh, parse_step s = .ok oh
          ∧ (oh = none ↔ (stepName s = some "user_entrypoint"
              ∨ stepName s = some "user_returned")) :=
  c5_order_and_marker_filtering.1 none [uepStep] (.mk [] none)
    (by rw [parse_frame_cons, parse_frame_nil]; rfl)

/-- Chasing the five required-field extractions back to the original step
object: each field was present with the right type. -/
theorem stepFields_lookup {keys0 : List (String × Value)}
    {pn : String × List (String × Value)} {pa po : List Value × List (String × Value)}
    {ps pe : Nat × List (String × Value)}
    (h1 : getString keys0 "name" = .ok pn) (h2 : getArray pn.2 "args" = .ok pa)
    (h3 : getArray pa.2 "outs" = .ok po) (h4 : get_int po.2 "startInk" = .ok ps)
    (h5 : get_int ps.2 "endInk" = .ok pe) :
    lookupFirst "name" keys0 = some (.str pn.1)
    ∧ lookupFirst "args" keys0 = some (.arr pa.1)
    ∧ lookupFirst "outs" keys0 = some (.arr po.1)
    ∧ lookupFirst "startInk" keys0 = some (.num (.int (ps.1 : Int)))
    ∧ lookupFirst "endInk" keys0 = some (.num (.int (pe.1 : Int))) := by
  obtain ⟨l1, st1⟩ := getString_lookup h1
  obtain ⟨l2, st2⟩ := getArray_lookup h2
  obtain ⟨l3, st3⟩ := getArray_lookup h3
  obtain ⟨l4, st4⟩ := get_int_lookup h4
  obtain ⟨l5, st5⟩ := get_int_lookup h5
  refine ⟨l1, ?_, ?_, ?_, ?_⟩
  · rw [← st1 "args" (by decide)]
    exact l2
  · rw [← st1 "outs" (by decide), ← st2 "outs" (by decide)]
    exact l3
  · rw [← st1 "startInk" (by decide), ← st2 "startInk" (by decide),
      ← st3 "startInk" (by decide)]
    exact l4
  · rw [← st1 "endInk" (by decide), ← st2 "endInk" (by decide),
      ← st3 "endInk" (by decide), ← st4 "endInk" (by decide)]
    exact l5

/-- A `user_entrypoint` marker step with no `outs` field. -/
def badMarkerStep : Value :=
  .obj [("name", .str "user_entrypoint"), ("args", .arr []),
    ("startInk", .num (.int 1)), ("endInk", .num (.int 1))]

/-- A `user_returned` marker step whose `startInk` field is a string. -/
def badMarkerStep2 : Value :=
  .obj [("name", .str "user_returned"), ("args", .arr []), ("outs", .arr []),
    ("startInk", .str "x"), ("endInk", .num (.int 1))]

/-- C10: a marker step is fully field-validated before being dropped: any
step that decodes to the dropped outcome had all of `name`, `args`, `outs`,
`startInk`, `endInk` present with the right types; and a marker step
missing `outs`, or one whose `startInk` is a string, fails the entire
decode with the corresponding field error instead of being ignored. -/
theorem c10_markers_field_validated :
    (∀ (s : Value), parse_step s = .ok none →
        (stepName s = some "user_entrypoint" ∨ stepName s = some "user_returned")
        ∧ (∃ args, getField s "args" = some (.arr args))
        ∧ (∃ outs, getField s "outs" = some (.arr outs))
        ∧ (∃ si : Nat, getField s "startInk" = some (.num (.int (si : Int))))
        ∧ (∃ ei : Nat, getField s "endInk" = some (.num (.int (ei : Int)))))
    ∧ parse_frame none (.arr [raStep, badMarkerStep])
        = .error (.diag (.missingField "outs"))
    ∧ parse_frame none (.arr [badMarkerStep2])
        = .error (.diag (.wrongType "startInk" (.str "x"))) := by
  refine ⟨?_, ?_, ?_⟩
  · intro s h
    refine ⟨(parse_step_marker_iff h).1 rfl, ?_⟩
    have hcore : parse_step_core s = .ok (.done none) := by
      unfold parse_step at h
      split at h
      · cases h
      · rename_i heq
        cases h
        exact heq
      · rename_i heq
        split at h
        · cases h
        · simp at h
    obtain ⟨keys0, pn, pa, po, ps, pe, rfl, h1, h2, h3, h4, h5, _⟩ :=
      parse_step_core_ok_inv hcore
    obtain ⟨_, l2, l3, l4, l5⟩ := stepFields_lookup h1 h2 h3 h4 h5
    exact ⟨⟨pa.1, by simpa [getField] using l2⟩,
      ⟨po.1, by simpa [getField] using l3⟩,
      ⟨ps.1, by simpa [getField] using l4⟩,
      ⟨pe.1, by simpa [getField] using l5⟩⟩
  · rw [parse_frame_cons, parse_frame_cons, parse_frame_nil]
    rfl
  · rw [parse_frame_cons, parse_frame_nil]
    rfl

/-- C10 witness: the general part applied to a concrete well-formed
marker step. -/
theorem c10_witness :
    (stepName uepStep = some "user_entrypoint"
        ∨ stepName uepStep = some "user_returned")
      ∧ (∃ args, getField uepStep "args" = some (.arr args))
      ∧ (∃ outs, getField uepStep "outs" = some (.arr outs))
      ∧ (∃ si : Nat, getField uepStep "startInk" = some (.num (.int (si : Int))))
      ∧ (∃ ei : Nat, getField uepStep "endInk" = some (.num (.int (ei : Int)))) :=
  c10_markers_field_validated.1 uepStep rfl

/-! ## Round-trip lemmas (C9) -/

theorem bytesToValues_append (a b : List Nat) :
    bytesToValues (a ++ b) = bytesToValues a ++ bytesToValues b :=
  List.map_append _ a b

theorem beNat_lt {d : List Nat} (h : ∀ b ∈ d, b ≤ 255) :
    beNat d < 256 ^ d.length := by
  induction d with
  | nil => simp [beNat]
  | cons b t ih =>
    have hb := h b (List.mem_cons_self b t)
    have ht := ih fun x hx => h x (List.mem_cons_of_mem b hx)
    simp only [beNat, List.length_cons]
    calc b * 256 ^ t.length + beNat t
        < b * 256 ^ t.length + 256 ^ t.length := by omega
      _ = (b + 1) * 256 ^ t.length := by ring
      _ ≤ 256 * 256 ^ t.length := Nat.mul_le_mul_right _ (by omega)
      _ = 256 ^ (t.length + 1) := by ring

theorem beBytes_shift (w b M : Nat) :
    beBytes w (b * 256 ^ w + M) = beBytes w M := by
  induction w generalizing b with
  | zero => rfl
  | succ w ih =>
    simp only [beBytes, List.cons.injEq]
    refine ⟨?_, ?_⟩
    · have h1 : b * 256 ^ (w + 1) + M = M + b * 256 * 256 ^ w := by ring
      rw [h1, Nat.add_mul_div_right _ _ (show 0 < 256 ^ w by positivity),
        Nat.add_mul_mod_self_right]
    · have h1 : b * 256 ^ (w + 1) + M = b * 256 * 256 ^ w + M := by ring
      rw [h1, ih (b * 256)]

theorem beBytes_beNat {d : List Nat} (h : ∀ b ∈ d, b ≤ 255) :
    beBytes d.length (beNat d) = d := by
  induction d with
  | nil => rfl
  | cons b t ih =>
    have hb := h b (List.mem_cons_self b t)
    have ht := ih fun x hx => h x (List.mem_cons_of_mem b hx)
    have hlt := beNat_lt fun x hx => h x (List.mem_cons_of_mem b hx)
    simp only [List.length_cons, beBytes, beNat, List.cons.injEq]
    refine ⟨?_, ?_⟩
    · have h1 : b * 256 ^ t.length + beNat t = beNat t + b * 256 ^ t.length := by
        ring
      rw [h1, Nat.add_mul_div_right _ _ (show 0 < 256 ^ t.length by positivity),
        Nat.div_eq_of_lt hlt]
      simpa using Nat.mod_eq_of_lt (show b < 256 by omega)
    · rw [beBytes_shift, ht]

theorem beBytes_one {n : Nat} (h : n < 256) : beBytes 1 n = [n] := by
  simp [beBytes, Nat.mod_eq_of_lt h]

theorem sliceRange_ok {xs : List Value} {a b : Nat} {out : List Value}
    (h : sliceRange xs a b = .ok out) :
    b ≤ xs.length ∧ out = (xs.drop a).take (b - a) := by
  unfold sliceRange at h
  split at h
  · cases h
    exact ⟨by assumption, rfl⟩
  · cases h

theorem sliceFrom_ok {xs : List Value} {a : Nat} {out : List Value}
    (h : sliceFrom xs a = .ok out) : a ≤ xs.length ∧ out = xs.drop a := by
  unfold sliceFrom at h
  split at h
  · cases h
    exact ⟨by assumption, rfl⟩
  · cases h

theorem conv_nat_inv {w : Nat} {ty : String} {data : List Value} {n : Nat}
    (h : (to_data data >>= fun d =>
        if d.length ≠ w then .error (.diag (.wrongWidth ty d))
        else pure (beNat d)) = .ok n) :
    data = bytesToValues (beBytes w n) ∧ n < 256 ^ w := by
  simp only [bind_eq_ok] at h
  obtain ⟨d, hd, hif⟩ := h
  split at hif
  · cases hif
  · rename_i hlen
    simp only [pureE, Except.ok.injEq] at hif
    subst hif
    obtain ⟨hdata, hb⟩ := to_data_ok_inv hd
    have hw : d.length = w := by omega
    subst hw
    rw [beBytes_beNat hb]
    exact ⟨hdata, beNat_lt hb⟩

theorem conv_list_inv {w : Nat} {ty : String} {data : List Value}
    {out : List Nat}
    (h : (to_data data >>= fun d =>
        if d.length ≠ w then .error (.diag (.wrongWidth ty d))
        else pure d) = .ok out) :
    data = bytesToValues out ∧ out.length = w ∧ ∀ b ∈ out, b ≤ 255 := by
  simp only [bind_eq_ok] at h
  obtain ⟨d, hd, hif⟩ := h
  split at hif
  · cases hif
  · rename_i hlen
    simp only [pureE, Except.ok.injEq] at hif
    subst hif
    obtain ⟨hdata, hb⟩ := to_data_ok_inv hd
    exact ⟨hdata, by omega, hb⟩

/-- Reassembling the four `call_contract` args slices. -/
theorem slice_reassemble (xs : List Value) :
    xs = (xs.drop 0).take 20 ++ ((xs.drop 20).take 8 ++
      ((xs.drop 28).take 32 ++ xs.drop 60)) := by
  have h1 : (xs.drop 28).take 32 ++ xs.drop 60 = xs.drop 28 := by
    have := List.take_append_drop 32 (xs.drop 28)
    rwa [List.drop_drop, show 32 + 28 = 60 from rfl] at this
  have h2 : (xs.drop 20).take 8 ++ xs.drop 28 = xs.drop 20 := by
    have := List.take_append_drop 8 (xs.drop 20)
    rwa [List.drop_drop, show 8 + 20 = 28 from rfl] at this
  rw [h1, h2]
  simp

/-- Re-extraction: the input field values a retained hostio came from,
reconstructed from the decoded record. `read_args`, `msg_value` and
`contract_address` read the step's `outs`; `write_result` and `memory_grow`
read its `args`; `call_contract` reads both, with its fixed-width fields
laid out big-endian at their byte offsets. The ink fields are reproduced
verbatim. -/
def ReExtract (s : Value) (h : Hostio) : Prop :=
  getField s "startInk" = some (.num (.int (h.start_ink : Int)))
  ∧ getField s "endInk" = some (.num (.int (h.end_ink : Int)))
  ∧ (match h.kind with
    | .readArgs d => getField s "outs" = some (.arr (bytesToValues d))
    | .writeResult r => getField s "args" = some (.arr (bytesToValues r))
    | .msgValue v => getField s "outs" = some (.arr (bytesToValues v))
    | .memoryGrow p =>
        getField s "args" = some (.arr (bytesToValues (beBytes 2 p)))
    | .contractAddress a => getField s "outs" = some (.arr (bytesToValues a))
    | .callContract a g vl d ol st _ =>
        getField s "args" = some (.arr (bytesToValues
          (a ++ beBytes 8 g ++ beBytes 32 vl ++ d)))
        ∧ getField s "outs" = some (.arr (bytesToValues (beBytes 4 ol ++ [st])))
    | .userEntrypoint => True
    | .userReturned => True)

/-- C9: every retained hostio reproduces its input step's `args`/`outs`/
`startInk`/`endInk` values exactly (per `ReExtract`); in particular the ink
values are stored unchanged. -/
theorem c9_round_trip (s : Value) (h0 : Hostio)
    (h : parse_step s = .ok (some h0)) : ReExtract s h0 := by
  unfold parse_step at h
  split at h
  · cases h
  · rename_i oh' hcore
    cases h
    obtain ⟨keys0, pn, pa, po, ps, pe, rfl, h1, h2, h3, h4, h5, hbr⟩ :=
      parse_step_core_ok_inv hcore
    obtain ⟨l1, l2, l3, l4, l5⟩ := stepFields_lookup h1 h2 h3 h4 h5
    rcases hbr with ⟨hn, d, hd, hr⟩ | ⟨hn, d, hd, hr⟩ | ⟨hn, v, hv, hr⟩
      | ⟨hn, p, hp, hr⟩ | ⟨hn, a', ha', hr⟩
      | ⟨hn, x1, x2, x3, x4, x5, x6, x7, x8, _, hr⟩ | ⟨hn, hr⟩
    · injection hr with hx
      injection hx with hy
      subst hy
      obtain ⟨houts, _⟩ := to_data_ok_inv hd
      refine ⟨l4, l5, ?_⟩
      show getField (.obj keys0) "outs" = some (.arr (bytesToValues d))
      rw [← houts]
      exact l3
    · injection hr with hx
      injection hx with hy
      subst hy
      obtain ⟨hargs, _⟩ := to_data_ok_inv hd
      refine ⟨l4, l5, ?_⟩
      show getField (.obj keys0) "args" = some (.arr (bytesToValues d))
      rw [← hargs]
      exact l2
    · injection hr with hx
      injection hx with hy
      subst hy
      unfold to_b256 at hv
      obtain ⟨houts, _, _⟩ := conv_list_inv hv
      refine ⟨l4, l5, ?_⟩
      show getField (.obj keys0) "outs" = some (.arr (bytesToValues v))
      rw [← houts]
      exact l3
    · injection hr with hx
      injection hx with hy
      subst hy
      unfold to_u16 at hp
      obtain ⟨hargs, _⟩ := conv_nat_inv hp
      refine ⟨l4, l5, ?_⟩
      show getField (.obj keys0) "args" = some (.arr (bytesToValues (beBytes 2 p)))
      rw [← hargs]
      exact l2
    · injection hr with hx
      injection hx with hy
      subst hy
      unfold to_address at ha'
      obtain ⟨houts, _, _⟩ := conv_list_inv ha'
      refine ⟨l4, l5, ?_⟩
      show getField (.obj keys0) "outs" = some (.arr (bytesToValues a'))
      rw [← houts]
      exact l3
    · simp at hr
    · injection hr with hx
      cases hx
  · rename_i a g vl d ol st si ei toAddr stepsVal hcore
    split at h
    · cases h
    · rename_i inner hinner
      cases h
      obtain ⟨keys0, pn, pa, po, ps, pe, rfl, h1, h2, h3, h4, h5, hbr⟩ :=
        parse_step_core_ok_inv hcore
      obtain ⟨l1, l2, l3, l4, l5⟩ := stepFields_lookup h1 h2 h3 h4 h5
      rcases hbr with ⟨hn, _, _, hr⟩ | ⟨hn, _, _, hr⟩ | ⟨hn, _, _, hr⟩
        | ⟨hn, _, _, hr⟩ | ⟨hn, _, _, hr⟩
        | ⟨hn, addr, gas, value, data, outsLen, status, ta, sv, hcf, hr⟩
        | ⟨hn, hr⟩
      · simp at hr
      · simp at hr
      · simp at hr
      · simp at hr
      · simp at hr
      · injection hr with e1 e2 e3 e4 e5 e6 e7 e8 e9 e10
        subst e1
        subst e2
        subst e3
        subst e4
        subst e5
        subst e6
        subst e7
        subst e8
        subst e9
        subst e10
        obtain ⟨a20, g8, v32, dRest, o4, o1, pi1, pad, addrVals, pst,
          hsl1, hta20, hsl2, hg8, hsl3, hv32, hsl4, hdRest, hsl5, ho4,
          hsl6, ho1, hinfo, hpad, hsort, hsteps, htoA, hsv⟩ := hcf
        unfold to_address at hta20
        unfold to_u64 at hg8
        unfold to_u256 at hv32
        unfold to_u32 at ho4
        unfold to_u8 at ho1
        obtain ⟨haddrB, _, _⟩ := conv_list_inv hta20
        obtain ⟨hgasB, _⟩ := conv_nat_inv hg8
        obtain ⟨hvalB, _⟩ := conv_nat_inv hv32
        obtain ⟨hdataB, _⟩ := to_data_ok_inv hdRest
        obtain ⟨holB, _⟩ := conv_nat_inv ho4
        obtain ⟨hstB, hstLt⟩ := conv_nat_inv ho1
        obtain ⟨_, ea20⟩ := sliceRange_ok hsl1
        obtain ⟨_, eg8⟩ := sliceRange_ok hsl2
        obtain ⟨_, ev32⟩ := sliceRange_ok hsl3
        obtain ⟨_, edRest⟩ := sliceFrom_ok hsl4
        obtain ⟨_, eo4⟩ := sliceRange_ok hsl5
        obtain ⟨_, eo1⟩ := sliceFrom_ok hsl6
        have hargs : pa.1 = bytesToValues
            (a ++ beBytes 8 g ++ beBytes 32 vl ++ d) := by
          have hsplit := slice_reassemble pa.1
          rw [← ea20, ← eg8, ← ev32, ← edRest] at hsplit
          rw [hsplit, haddrB, hgasB, hvalB, hdataB]
          simp [bytesToValues_append, List.append_assoc]
        have houts : po.1 = bytesToValues (beBytes 4 ol ++ [st]) := by
          have hsplit : po.1 = (po.1.drop 0).take 4 ++ po.1.drop 4 := by
            simp
          rw [← eo4, ← eo1] at hsplit
          rw [hsplit, holB, hstB, beBytes_one hstLt]
          simp [bytesToValues_append]
        refine ⟨l4, l5, ?_, ?_⟩
        · show getField (.obj keys0) "args" = some (.arr (bytesToValues
            (a ++ beBytes 8 g ++ beBytes 32 vl ++ d)))
          rw [← hargs]
          exact l2
        · show getField (.obj keys0) "outs" = some (.arr (bytesToValues
            (beBytes 4 ol ++ [st])))
          rw [← houts]
          exact l3
      · simp at hr

/-- C9 witness: the round trip applied to the concrete `read_args` step of
the end-to-end example. -/
theorem c9_witness : ReExtract raStep (.mk (.readArgs [1, 2, 3, 4]) 100 90) :=
  c9_round_trip raStep (.mk (.readArgs [1, 2, 3, 4]) 100 90) rfl

/-! ## The callee-address sort (C4) -/

def addrLt (p q : String × Value) : Prop := keyVal p < keyVal q

/-- The canonical geth address mapping `{"0": b0, ..., "19": b19}` with the
keys in numeric order. -/
def addrEntries (vals : Fin 20 → Nat) : List (String × Value) :=
  (List.finRange 20).map (fun i => (toString i.val, Value.num (.int (vals i : Int))))

/-- A generic `call_contract` step whose `info.address` mapping is the
given entry list (other fields fixed to valid values: zero address, gas and
value, empty call data, empty nested frame). -/
def ccStep (kvs : List (String × Value)) : Value :=
  .obj [("name", .str "call_contract"),
    ("args", .arr (bytesToValues (List.replicate 60 0))),
    ("outs", .arr (bytesToValues (List.replicate 5 0))),
    ("startInk", .num (.int 3)), ("endInk", .num (.int 2)),
    ("info", .obj [("address", .obj kvs), ("steps", .arr [])])]

theorem parse_u8_small_low : ∀ n, n < 10 → parse_u8 (toString n) = some n := by
  intro n hn
  interval_cases n <;> rfl

theorem parse_u8_small_high :
    ∀ n, 10 ≤ n → n < 20 → parse_u8 (toString n) = some n := by
  intro n h1 h2
  interval_cases n <;> rfl

theorem parse_u8_small : ∀ n, n < 20 → parse_u8 (toString n) = some n := by
  intro n hn
  by_cases h : n < 10
  · exact parse_u8_small_low n h
  · exact parse_u8_small_high n (by omega) hn

/-- C4: for a `call_contract` step whose `info.address` mapping holds the
byte values `vals` under the decimal keys `"0"`..`"19"` in any order, the
sort produces the values in numeric key order, the decoded callee address
is their big-endian concatenation, and the nested frame of the decoded
step carries exactly that address — independent of the order of the
mapping's keys in the input. -/
theorem c4_callee_address_sorted (vals : Fin 20 → Nat) (hv : ∀ i, vals i ≤ 255)
    (kvs : List (String × Value)) (hperm : List.Perm kvs (addrEntries vals)) :
    sort_address kvs = .ok (bytesToValues (List.ofFn vals))
    ∧ to_address (bytesToValues (List.ofFn vals)) = .ok (List.ofFn vals)
    ∧ parse_step (ccStep kvs) = .ok (some (.mk (.callContract
        (List.replicate 20 0) 0 0 [] 0 0 (.mk [] (some (List.ofFn vals)))) 3 2)) := by
  have hkey : ∀ i : Fin 20,
      keyVal (toString i.val, Value.num (.int (vals i : Int))) = i.val := by
    intro i
    simp [keyVal, parse_u8_small i.val i.isLt]
  have hmem : ∀ p ∈ kvs, ∃ i : Fin 20,
      p = (toString i.val, Value.num (.int (vals i : Int))) := by
    intro p hp
    have := hperm.mem_iff.1 hp
    simp only [addrEntries, List.mem_map] at this
    obtain ⟨i, _, rfl⟩ := this
    exact ⟨i, rfl⟩
  have hvalsmap : bytesToValues (List.ofFn vals)
      = (addrEntries vals).map Prod.snd := by
    simp only [bytesToValues, addrEntries, List.map_map, List.ofFn_eq_map]
    exact List.map_congr_left fun i _ => rfl
  have hsort : sort_address kvs = .ok (bytesToValues (List.ofFn vals)) := by
    unfold sort_address
    rw [if_pos]
    · have hins : List.insertionSort addrLe kvs = addrEntries vals := by
        haveI : IsTotal (String × Value) addrLe := ⟨fun a b => Nat.le_total _ _⟩
        haveI : IsTrans (String × Value) addrLe :=
          ⟨fun a b c hab hbc => Nat.le_trans hab hbc⟩
        haveI : IsAntisymm (String × Value) addrLt :=
          ⟨fun a b h1 h2 => absurd h1 (Nat.lt_asymm h2)⟩
        have hp : List.Perm (List.insertionSort addrLe kvs) (addrEntries vals) :=
          (List.perm_insertionSort addrLe kvs).trans hperm
        have hcanonmap : (addrEntries vals).map keyVal
            = (List.finRange 20).map Fin.val := by
          simp only [addrEntries, List.map_map]
          exact List.map_congr_left fun i _ => hkey i
        have hnodup : ((List.insertionSort addrLe kvs).map keyVal).Nodup := by
          rw [(hp.map keyVal).nodup_iff, hcanonmap]
          exact (List.nodup_finRange 20).map Fin.val_injective
        have hsorted1 : List.Sorted addrLt (List.insertionSort addrLe kvs) := by
          have hle := List.sorted_insertionSort addrLe kvs
          have hne : (List.insertionSort addrLe kvs).Pairwise
              (fun p q => keyVal p ≠ keyVal q) := List.pairwise_map.1 hnodup
          exact (hle.and hne).imp fun h => Nat.lt_of_le_of_ne h.1 h.2
        have hsorted2 : List.Sorted addrLt (addrEntries vals) := by
          unfold addrEntries
          rw [List.Sorted, List.pairwise_map]
          refine (List.pairwise_lt_finRange 20).imp ?_
          intro i j hij
          show keyVal _ < keyVal _
          rw [hkey i, hkey j]
          exact hij
        exact List.eq_of_perm_of_sorted hp hsorted1 hsorted2
      rw [hins, ← hvalsmap]
    · rw [List.all_eq_true]
      intro p hp
      obtain ⟨i, rfl⟩ := hmem p hp
      simp [parse_u8_small i.val i.isLt]
  have hto : to_address (bytesToValues (List.ofFn vals)) = .ok (List.ofFn vals) := by
    unfold to_address
    rw [to_data_bytes]
    · simp
    · intro b hb
      rw [List.mem_ofFn] at hb
      obtain ⟨i, rfl⟩ := hb
      exact hv i
  refine ⟨hsort, hto, ?_⟩
  have hcore : parse_step_core (ccStep kvs)
      = (sort_address kvs >>= fun addrVals =>
        optUnwrap (removeKey "steps" [("steps", Value.arr [])]) >>= fun pst =>
        to_address addrVals >>= fun toAddr =>
        pure (.pend (List.replicate 20 0) 0 0 [] 0 0 3 2 toAddr pst.1)) := rfl
  have hcore2 : parse_step_core (ccStep kvs) = .ok (.pend (List.replicate 20 0)
      0 0 [] 0 0 3 2 (List.ofFn vals) (.arr [])) := by
    rw [hcore, hsort, bindE_ok,
      show optUnwrap (removeKey "steps" [("steps", Value.arr [])])
        = .ok ((Value.arr [], []) : Value × List (String × Value)) from rfl, hto]
    rfl
  unfold parse_step
  rw [hcore2]
  simp [parse_frame_nil]

/-- C4 witness: the reversed (hence non-numeric, non-lexicographic) key
order on the identity byte pattern yields the same numeric-order address. -/
theorem c4_witness :
    sort_address ((addrEntries (fun i => i.val)).reverse)
      = .ok (bytesToValues (List.ofFn (fun i : Fin 20 => i.val))) :=
  (c4_callee_address_sorted (fun i => i.val)
    (fun i => by show i.val ≤ 255; have := i.isLt; omega)
    ((addrEntries (fun i => i.val)).reverse) (List.reverse_perm _)).1

/-! ## Malformed inputs (C6) -/

/-- A `read_args` step whose `startInk` is the negative number `-1`. -/
def negInkStep : Value :=
  .obj [("name", .str "read_args"), ("args", .arr []), ("outs", .arr []),
    ("startInk", .num (.int (-1))), ("endInk", .num (.int 0))]

/-- A step with no `name` field. -/
def noNameStep : Value :=
  .obj [("args", .arr []), ("outs", .arr []),
    ("startInk", .num (.int 1)), ("endInk", .num (.int 1))]

/-- A step whose `args` field is a string. -/
def badArgsStep : Value :=
  .obj [("name", .str "read_args"), ("args", .str "zzz"), ("outs", .arr []),
    ("startInk", .num (.int 1)), ("endInk", .num (.int 1))]

/-- A `read_args` step with the out-of-range byte 300 in `outs`. -/
def bigByteStep : Value :=
  .obj [("name", .str "read_args"), ("args", .arr []),
    ("outs", .arr [.num (.int 300)]),
    ("startInk", .num (.int 1)), ("endInk", .num (.int 1))]

/-- A `call_contract` step whose `args` has only 10 of the 60 required
bytes. -/
def shortArgsStep : Value :=
  .obj [("name", .str "call_contract"),
    ("args", .arr (bytesToValues (List.replicate 10 0))),
    ("outs", .arr (bytesToValues (List.replicate 5 0))),
    ("startInk", .num (.int 1)), ("endInk", .num (.int 1))]

/-- A `call_contract` step whose `outs` has only 3 of the 5 required
bytes. -/
def shortOutsStep : Value :=
  .obj [("name", .str "call_contract"),
    ("args", .arr (bytesToValues (List.replicate 60 0))),
    ("outs", .arr (bytesToValues (List.replicate 3 0))),
    ("startInk", .num (.int 1)), ("endInk", .num (.int 1))]

/-- A `read_args` step whose `startInk` is a fractional number. -/
def fracInkStep : Value :=
  .obj [("name", .str "read_args"), ("args", .arr []), ("outs", .arr []),
    ("startInk", .num .frac), ("endInk", .num (.int 1))]

/-- A `call_contract` step whose nested `info` object has no `steps`
key. -/
def noStepsStep : Value :=
  .obj [("name", .str "call_contract"),
    ("args", .arr (bytesToValues (List.replicate 60 0))),
    ("outs", .arr (bytesToValues (List.replicate 5 0))),
    ("startInk", .num (.int 1)), ("endInk", .num (.int 1)),
    ("info", .obj [("address", .obj [])])]

/-- A `call_contract` step whose `info.address` mapping has the
non-numeric key `"xx"`. -/
def badKeyStep : Value :=
  .obj [("name", .str "call_contract"),
    ("args", .arr (bytesToValues (List.replicate 60 0))),
    ("outs", .arr (bytesToValues (List.replicate 5 0))),
    ("startInk", .num (.int 1)), ("endInk", .num (.int 1)),
    ("info", .obj [("address", .obj [("xx", .num (.int 0)), ("0", .num (.int 1))]),
      ("steps", .arr [])])]

/-- C6 counterexample: a step whose `startInk` is `-1` is malformed, yet
decoding aborts through `startInk.as_u64().unwrap()` — a panic carrying no
field or step diagnostic — refuting the claim that every malformed input
fails with a parse error carrying the offending field or step. -/
theorem c6_counterexample :
    parse_frame none (.arr [negInkStep]) = .error (.panic .unwrapNone) := by
  rw [parse_frame_cons]
  rfl

/-- C6 (amended): malformed inputs always fail to decode, but only some
failures carry the offending field or value: a missing or mistyped
required field and an out-of-range integer byte produce the naming
diagnostic, while a `call_contract` step with fewer than 60 args or fewer
than 5 outs, a fractional (or negative) ink value, a nested `info` missing
its `steps` key, or an address mapping with a non-numeric key abort with a
bare panic that lacks it. -/
theorem c6_malformed_inputs :
    parse_frame none (.arr [noNameStep]) = .error (.diag (.missingField "name"))
    ∧ parse_frame none (.arr [badArgsStep])
        = .error (.diag (.wrongType "args" (.str "zzz")))
    ∧ parse_frame none (.arr [bigByteStep])
        = .error (.diag (.byteOutOfRange 300))
    ∧ parse_frame none (.arr [shortArgsStep])
        = .error (.panic (.sliceOutOfRange 20 10))
    ∧ parse_frame none (.arr [shortOutsStep])
        = .error (.panic (.sliceOutOfRange 4 3))
    ∧ parse_frame none (.arr [fracInkStep]) = .error (.panic .unwrapNone)
    ∧ parse_frame none (.arr [noStepsStep]) = .error (.panic .unwrapNone)
    ∧ parse_frame none (.arr [badKeyStep]) = .error (.panic .unwrapNone) := by
  refine ⟨?_, ?_, ?_, ?_, ?_, ?_, ?_, ?_⟩ <;> rw [parse_frame_cons] <;> rfl

end StylusReplay
